import Mathlib

/-!
Verification of the `useRefHistory` composable
(`src/composables/useRefHistory.ts`).

The composable attaches an undo/redo history tracker to a single mutable
reactive cell.  We embed its state and its event handlers shallowly:

* the tracked `source` ref, the `history` and `future` record lists, the
  `doingUndo` / `doingRedo` suppression flags and the `lastChanged`
  timestamp become a `TrackerState` record;
* the `watch(source, ...)` callback, `undo`, `redo` and the capacity
  `watchEffect` become state-transition functions; `Date.now()` values are
  passed in explicitly as `now : Nat` arguments;
* the capacity argument (`MaybeRefOrGetter<number>`, default `Infinity`)
  is resolved with `toValue` at every use site in the source, so each
  transition takes the capacity value resolved for that event as a
  `Capacity` argument (`fin n` for a number, `inf` for `Infinity`);
* `clone` is `JSON.parse(JSON.stringify(v))`, the identity on the
  serializable values in scope, so it is embedded as the identity;
* a "settled" event (everything processed up to `await nextTick()`)
  consists of the primitive handler followed by a re-run of the capacity
  `watchEffect`, which re-fires whenever `history` changes because it
  reads `history.value.length`.
-/

/-- A history record: `{ value: T; timestamp: number }`. -/
structure HistoryRecord (T : Type) where
  value : T
  timestamp : Nat
deriving DecidableEq, Repr

/-- The resolved capacity: `toValue(capacity)` is either a plain
non-negative number or the default `Infinity`. -/
inductive Capacity where
  | fin (n : Nat)
  | inf
deriving DecidableEq, Repr

namespace Capacity

/-- The JS test `cap === 0` (`Infinity === 0` is false). -/
def isZero : Capacity → Bool
  | .fin n => n == 0
  | .inf => false

/-- The JS test `cap === history.value.length` (`Infinity === len` is false). -/
def eqLen : Capacity → Nat → Bool
  | .fin n, len => n == len
  | .inf, _ => false

/-- The JS test `history.value.length > cap` (`len > Infinity` is false). -/
def ltLen : Capacity → Nat → Bool
  | .fin n, len => n < len
  | .inf, _ => false

/-- `history.value.slice(0, cap)`: the first `cap` entries
(`slice(0, Infinity)` keeps everything). -/
def slice : Capacity → List α → List α
  | .fin n, l => l.take n
  | .inf, l => l

/-- `min n cap` with `min n Infinity = n`. -/
def minWith : Capacity → Nat → Nat
  | .fin c, n => min n c
  | .inf, n => n

/-- `n ≤ cap` with everything below `Infinity`. -/
def geNat : Capacity → Nat → Prop
  | .fin c, n => n ≤ c
  | .inf, _ => True

instance : ∀ (cap : Capacity) (n : Nat), Decidable (cap.geNat n)
  | .fin c, n => inferInstanceAs (Decidable (n ≤ c))
  | .inf, _ => inferInstanceAs (Decidable True)

end Capacity

/-- The full mutable state of one `useRefHistory` tracker together with its
tracked cell: `source.value`, `history.value`, `future.value`, the two
suppression flags and the `lastChanged` timestamp. -/
structure TrackerState (T : Type) where
  source : T
  history : List (HistoryRecord T)
  future : List (HistoryRecord T)
  doingUndo : Bool
  doingRedo : Bool
  lastChanged : Nat
deriving DecidableEq, Repr

/-- `clone(value) = JSON.parse(JSON.stringify(value))`: a structural deep
copy, which on the serializable values modelled here returns an equal
value, hence the identity in this value-level embedding. -/
def clone {α : Type} (v : α) : α := v

/-- State right after `useRefHistory(source, capacity)` is called: both
lists empty, both flags false, `lastChanged = Date.now()` (`t`), and the
cell holding its initial value `v`. -/
def initState {T : Type} (v : T) (t : Nat) : TrackerState T :=
  { source := v, history := [], future := [], doingUndo := false,
    doingRedo := false, lastChanged := t }

/-- The `watch(source, (newVal, oldValue) => ...)` callback.  It runs after
the new value has been stored in the cell; `oldValue` is the previous cell
value and `cap` the capacity resolved by `toValue(capacity)` during this
run.  `now` is `Date.now()` at the run. -/
def watchHandler {T : Type} (cap : Capacity) (now : Nat) (oldValue : T)
    (s : TrackerState T) : TrackerState T :=
  if s.doingUndo || s.doingRedo then s
  else
    let s1 := { s with future := [] }
    if cap.isZero then s1
    else
      let s2 := if cap.eqLen s1.history.length
        then { s1 with history := s1.history.dropLast }
        else s1
      { s2 with
        history := clone { value := oldValue, timestamp := s.lastChanged } :: s2.history,
        lastChanged := now }

/-- One discrete external write `source.value = v` together with the watch
callback it triggers (the watcher fires once per value-changing
assignment; the spec's mutation events are exactly such writes). -/
def extMutate {T : Type} (cap : Capacity) (now : Nat) (v : T)
    (s : TrackerState T) : TrackerState T :=
  watchHandler cap now s.source { s with source := v }

/-- The `undo` function, through settling: set `doingUndo`, shift the
newest history record, and when one exists push a clone of the current
cell value onto `future` and write the record's value back into the cell;
the write triggers `watchHandler`, which returns immediately because
`doingUndo` is still true (see `watchHandler_suppressed`), and the
`nextTick` callback then clears the flag. -/
def undo {T : Type} (now : Nat) (s : TrackerState T) : TrackerState T :=
  let s1 := { s with doingUndo := true }
  match s1.history with
  | [] => { s1 with doingUndo := false }
  | record :: rest =>
      let s2 := { s1 with
        history := rest,
        future := clone { value := s1.source, timestamp := now } :: s1.future }
      let s3 := { s2 with source := clone record.value }
      { s3 with doingUndo := false }

/-- The `redo` function, through settling: symmetric to `undo`, moving the
newest future record back into the cell and pushing the current value onto
`history`; the triggered watcher run is suppressed by `doingRedo` and the
flag is cleared on `nextTick`. -/
def redo {T : Type} (now : Nat) (s : TrackerState T) : TrackerState T :=
  let s1 := { s with doingRedo := true }
  match s1.future with
  | [] => { s1 with doingRedo := false }
  | record :: rest =>
      let s2 := { s1 with
        future := rest,
        history := clone { value := s1.source, timestamp := now } :: s1.history }
      let s3 := { s2 with source := clone record.value }
      { s3 with doingRedo := false }

/-- One run of the capacity `watchEffect`: with `cap` the value resolved by
`toValue(capacity)`, truncate `history` to its first `cap` entries when it
is longer than `cap`. -/
def capacityEffect {T : Type} (cap : Capacity) (s : TrackerState T) :
    TrackerState T :=
  if cap.ltLen s.history.length then { s with history := cap.slice s.history }
  else s

/-- One settled tracker event: an external mutation, an `undo()` call, a
`redo()` call, or a change of the resolved capacity.  `cap` is the value
the capacity resolves to while the event settles. -/
inductive Op (T : Type) where
  | mutate (cap : Capacity) (now : Nat) (v : T)
  | doUndo (cap : Capacity) (now : Nat)
  | doRedo (cap : Capacity) (now : Nat)
  | capChange (cap : Capacity)
deriving DecidableEq, Repr

/-- The capacity resolved during an event. -/
def Op.cap {T : Type} : Op T → Capacity
  | .mutate c _ _ => c
  | .doUndo c _ => c
  | .doRedo c _ => c
  | .capChange c => c

/-- Run one event to its settling point.  The capacity `watchEffect` reads
`history.value.length`, so any handler that touched `history` re-triggers
it before `nextTick` resolves; a capacity change triggers it directly. -/
def applyOp {T : Type} : Op T → TrackerState T → TrackerState T
  | .mutate cap now v, s => capacityEffect cap (extMutate cap now v s)
  | .doUndo cap now, s => capacityEffect cap (undo now s)
  | .doRedo cap now, s => capacityEffect cap (redo now s)
  | .capChange cap, s => capacityEffect cap s

/-- Run a sequence of settled events in order. -/
def runOps {T : Type} (ops : List (Op T)) (s : TrackerState T) :
    TrackerState T :=
  ops.foldl (fun st op => applyOp op st) s

/-- The external value written by a mutation event, if the event is one. -/
def Op.mutVal {T : Type} : Op T → Option T
  | .mutate _ _ v => some v
  | _ => none

/-- The values written by the external mutations of a sequence, in order. -/
def mutVals {T : Type} (ops : List (Op T)) : List T :=
  ops.filterMap Op.mutVal

/-- All values currently held by the tracker: the cell value followed by
the values stored in `history` and in `future`. -/
def stateVals {T : Type} (s : TrackerState T) : List T :=
  s.source :: (s.history.map HistoryRecord.value ++
    s.future.map HistoryRecord.value)

/-- A watcher run observed while `doingUndo` is set is ignored entirely:
this is the suppression that lets `undo`/`redo` elide the handler call
triggered by their own write to the cell. -/
theorem watchHandler_suppressed {T : Type} (cap : Capacity) (now : Nat)
    (oldValue : T) (s : TrackerState T) (h : s.doingUndo = true ∨ s.doingRedo = true) :
    watchHandler cap now oldValue s = s := by
  unfold watchHandler
  rcases h with h | h <;> simp [h]

/-- `slice` never adds entries: the result is a sublist of the input. -/
theorem Capacity.slice_sublist (cap : Capacity) (l : List α) :
    List.Sublist (cap.slice l) l := by
  cases cap <;> simp [Capacity.slice, List.take_sublist]

/-- The capacity effect does nothing when the history is not longer than
the resolved capacity. -/
theorem capacityEffect_eq_of_not_lt {T : Type} (cap : Capacity)
    (s : TrackerState T) (h : cap.ltLen s.history.length = false) :
    capacityEffect cap s = s := by
  unfold capacityEffect
  simp [h]

/-- One run of the capacity effect leaves the history no longer than the
resolved capacity. -/
theorem capacityEffect_length_le {T : Type} (cap : Capacity)
    (s : TrackerState T) : cap.geNat (capacityEffect cap s).history.length := by
  cases cap with
  | inf => simp [Capacity.geNat]
  | fin n =>
      unfold capacityEffect
      by_cases h : Capacity.ltLen (Capacity.fin n) s.history.length = true
      · simp only [h, if_true]
        simp only [Capacity.ltLen, decide_eq_true_eq] at h
        simp [Capacity.geNat, Capacity.slice]
      · simp only [h]
        simp only [Capacity.ltLen, decide_eq_true_eq, Nat.not_lt] at h
        simpa [Capacity.geNat] using h

/-- C2: starting from cell value 0 with capacity 4, assigning 1, 2, 3 in
sequence yields `history = [{2},{1},{0}]` (newest first, by value) and
cell 3; `undo()` then gives cell 2, `history = [{1},{0}]`,
`future = [{3}]`; `redo()` then gives cell 3 with history and future
holding the same values in the same order as before the undo. -/
theorem concrete_scenario_undo_redo :
    (runOps [Op.mutate (.fin 4) 101 1, .mutate (.fin 4) 102 2,
      .mutate (.fin 4) 103 3] (initState 0 100)).history.map
        HistoryRecord.value = [2, 1, 0] ∧
    (runOps [Op.mutate (.fin 4) 101 1, .mutate (.fin 4) 102 2,
      .mutate (.fin 4) 103 3] (initState 0 100)).source = 3 ∧
    (runOps [Op.mutate (.fin 4) 101 1, .mutate (.fin 4) 102 2,
      .mutate (.fin 4) 103 3, .doUndo (.fin 4) 104]
      (initState 0 100)).source = 2 ∧
    (runOps [Op.mutate (.fin 4) 101 1, .mutate (.fin 4) 102 2,
      .mutate (.fin 4) 103 3, .doUndo (.fin 4) 104]
      (initState 0 100)).history.map HistoryRecord.value = [1, 0] ∧
    (runOps [Op.mutate (.fin 4) 101 1, .mutate (.fin 4) 102 2,
      .mutate (.fin 4) 103 3, .doUndo (.fin 4) 104]
      (initState 0 100)).future.map HistoryRecord.value = [3] ∧
    (runOps [Op.mutate (.fin 4) 101 1, .mutate (.fin 4) 102 2,
      .mutate (.fin 4) 103 3, .doUndo (.fin 4) 104, .doRedo (.fin 4) 105]
      (initState 0 100)).source = 3 ∧
    (runOps [Op.mutate (.fin 4) 101 1, .mutate (.fin 4) 102 2,
      .mutate (.fin 4) 103 3, .doUndo (.fin 4) 104, .doRedo (.fin 4) 105]
      (initState 0 100)).history.map HistoryRecord.value =
      (runOps [Op.mutate (.fin 4) 101 1, .mutate (.fin 4) 102 2,
        .mutate (.fin 4) 103 3] (initState 0 100)).history.map
          HistoryRecord.value ∧
    (runOps [Op.mutate (.fin 4) 101 1, .mutate (.fin 4) 102 2,
      .mutate (.fin 4) 103 3, .doUndo (.fin 4) 104, .doRedo (.fin 4) 105]
      (initState 0 100)).future.map HistoryRecord.value =
      (runOps [Op.mutate (.fin 4) 101 1, .mutate (.fin 4) 102 2,
        .mutate (.fin 4) 103 3] (initState 0 100)).future.map
          HistoryRecord.value := by
  decide

/-- C3: an external (unsuppressed) mutation leaves `future` empty; when
the capacity resolves to 0 the future is still cleared even though the
history is left untouched. -/
theorem external_mutation_clears_future {T : Type} (cap : Capacity)
    (now : Nat) (v : T) (s : TrackerState T)
    (hu : s.doingUndo = false) (hr : s.doingRedo = false) :
    (extMutate cap now v s).future = [] ∧
    (cap = Capacity.fin 0 → (extMutate cap now v s).history = s.history) := by
  unfold extMutate watchHandler
  simp only [hu, hr, Bool.or_self, Bool.false_eq_true, if_false]
  constructor
  · split
    · rfl
    · split <;> rfl
  · intro hc
    subst hc
    simp [Capacity.isZero]

theorem external_mutation_clears_future_witness :
    (extMutate (Capacity.fin 0) 20 7
      ({ source := 5, history := [⟨1, 10⟩], future := [⟨9, 11⟩],
         doingUndo := false, doingRedo := false,
         lastChanged := 12 } : TrackerState Nat)).future = [] ∧
    (extMutate (Capacity.fin 0) 20 7
      ({ source := 5, history := [⟨1, 10⟩], future := [⟨9, 11⟩],
         doingUndo := false, doingRedo := false,
         lastChanged := 12 } : TrackerState Nat)).history = [⟨1, 10⟩] :=
  ⟨(external_mutation_clears_future (Capacity.fin 0) 20 7 _ rfl rfl).1,
   (external_mutation_clears_future (Capacity.fin 0) 20 7 _ rfl rfl).2 rfl⟩

/-- C5: shrinking the resolved capacity to `c` below the history length
truncates the history to its first (newest) `c` entries, and any later
capacity at least `c` leaves that truncated history unchanged — evicted
entries are never resurrected. -/
theorem capacity_shrink_truncates {T : Type} (s : TrackerState T)
    (c : Nat) (cap2 : Capacity) (h : c < s.history.length)
    (h2 : cap2.geNat c) :
    (capacityEffect (Capacity.fin c) s).history = s.history.take c ∧
    (capacityEffect cap2 (capacityEffect (Capacity.fin c) s)).history =
      s.history.take c := by
  have h1 : (capacityEffect (Capacity.fin c) s).history = s.history.take c := by
    unfold capacityEffect
    simp [Capacity.ltLen, Capacity.slice, h]
  refine ⟨h1, ?_⟩
  have hlen : (capacityEffect (Capacity.fin c) s).history.length = c := by
    rw [h1]; exact List.length_take_of_le (Nat.le_of_lt h)
  have hlt : cap2.ltLen c = false := by
    cases cap2 with
    | inf => rfl
    | fin m =>
        simp only [Capacity.geNat] at h2
        simp [Capacity.ltLen, Nat.not_lt.mpr h2]
  rw [capacityEffect_eq_of_not_lt cap2 _ (by rw [hlen]; exact hlt), h1]

theorem capacity_shrink_truncates_witness :
    1 < (({ source := 9, history := [⟨2, 30⟩, ⟨1, 20⟩, ⟨0, 10⟩], future := [],
            doingUndo := false, doingRedo := false,
            lastChanged := 40 } : TrackerState Nat)).history.length ∧
    (capacityEffect (Capacity.fin 1)
      ({ source := 9, history := [⟨2, 30⟩, ⟨1, 20⟩, ⟨0, 10⟩], future := [],
         doingUndo := false, doingRedo := false,
         lastChanged := 40 } : TrackerState Nat)).history = [⟨2, 30⟩] ∧
    (capacityEffect (Capacity.fin 5) (capacityEffect (Capacity.fin 1)
      ({ source := 9, history := [⟨2, 30⟩, ⟨1, 20⟩, ⟨0, 10⟩], future := [],
         doingUndo := false, doingRedo := false,
         lastChanged := 40 } : TrackerState Nat))).history = [⟨2, 30⟩] :=
  ⟨by decide,
   (capacity_shrink_truncates _ 1 (Capacity.fin 5) (by decide) (by decide)).1,
   (capacity_shrink_truncates _ 1 (Capacity.fin 5) (by decide) (by decide)).2⟩

/-- C6: after any settled event — external mutation, undo, redo or
capacity change — the history length does not exceed the capacity that
event resolved. -/
theorem history_length_le_capacity {T : Type} (op : Op T)
    (s : TrackerState T) :
    (op.cap).geNat (applyOp op s).history.length := by
  cases op <;> exact capacityEffect_length_le _ _

/-- C8: `undo()` with empty history and `redo()` with empty future are
silent no-ops: cell, history and future are unchanged and the suppression
flag is back to false once the call settles. -/
theorem empty_undo_redo_noop {T : Type} (s : TrackerState T) (n : Nat) :
    (s.history = [] → undo n s = { s with doingUndo := false }) ∧
    (s.future = [] → redo n s = { s with doingRedo := false }) := by
  constructor
  · intro h
    unfold undo
    simp [h]
  · intro h
    unfold redo
    simp [h]

theorem empty_undo_redo_noop_witness :
    undo 5 (initState (0 : Nat) 1) =
      { initState (0 : Nat) 1 with doingUndo := false } ∧
    redo 6 (initState (0 : Nat) 1) =
      { initState (0 : Nat) 1 with doingRedo := false } :=
  ⟨(empty_undo_redo_noop (initState (0 : Nat) 1) 5).1 rfl,
   (empty_undo_redo_noop (initState (0 : Nat) 1) 6).2 rfl⟩

/-- C10 counterexample: in a state whose history length (1) already
exceeds a resolved capacity of 0, the mutation handler prepends nothing —
the `cap === 0` early return fires before the push — so the claim that
the new record is still prepended fails at this input. -/
theorem over_capacity_mutation_counterexample :
    Capacity.ltLen (Capacity.fin 0)
      (({ source := 5, history := [⟨0, 50⟩], future := [],
          doingUndo := false, doingRedo := false,
          lastChanged := 60 } : TrackerState Nat)).history.length = true ∧
    (extMutate (Capacity.fin 0) 70 9
      ({ source := 5, history := [⟨0, 50⟩], future := [],
         doingUndo := false, doingRedo := false,
         lastChanged := 60 } : TrackerState Nat)).history = [⟨0, 50⟩] := by
  decide

/-- C10 amended: the handler evicts the oldest entry only when the
history length exactly equals the resolved capacity — whenever the
resolved capacity is nonzero and differs from the history length
(whether below it or, in particular, exceeded by it), nothing is evicted
and the new record is still prepended, growing the history by one; when
the two are equal the oldest (last) entry is dropped as the record is
prepended; and whenever the resolved capacity is 0 the handler returns
before touching history, so nothing is evicted and nothing is
prepended. -/
theorem over_capacity_mutation_amended {T : Type} (cap : Capacity)
    (now : Nat) (v : T) (s : TrackerState T) (hu : s.doingUndo = false)
    (hr : s.doingRedo = false) :
    (cap = Capacity.fin 0 →
      (extMutate cap now v s).history = s.history) ∧
    (cap.isZero = false → cap.eqLen s.history.length = false →
      (extMutate cap now v s).history =
        clone { value := s.source, timestamp := s.lastChanged } ::
          s.history ∧
      (extMutate cap now v s).history.length = s.history.length + 1) ∧
    (cap.isZero = false → cap.eqLen s.history.length = true →
      (extMutate cap now v s).history =
        clone { value := s.source, timestamp := s.lastChanged } ::
          s.history.dropLast) := by
  refine ⟨?_, ?_, ?_⟩
  · intro hc
    subst hc
    unfold extMutate watchHandler
    simp [hu, hr, Capacity.isZero]
  · intro hz he
    unfold extMutate watchHandler
    simp [hu, hr, hz, he]
  · intro hz he
    unfold extMutate watchHandler
    simp [hu, hr, hz, he]

theorem over_capacity_mutation_amended_witness :
    (extMutate (Capacity.fin 0) 70 9
      ({ source := 5, history := [⟨3, 40⟩, ⟨0, 30⟩], future := [],
         doingUndo := false, doingRedo := false,
         lastChanged := 60 } : TrackerState Nat)).history =
      [⟨3, 40⟩, ⟨0, 30⟩] ∧
    (extMutate (Capacity.fin 1) 70 9
      ({ source := 5, history := [⟨3, 40⟩, ⟨0, 30⟩], future := [],
         doingUndo := false, doingRedo := false,
         lastChanged := 60 } : TrackerState Nat)).history =
      [⟨5, 60⟩, ⟨3, 40⟩, ⟨0, 30⟩] ∧
    (extMutate (Capacity.fin 2) 70 9
      ({ source := 5, history := [⟨3, 40⟩, ⟨0, 30⟩], future := [],
         doingUndo := false, doingRedo := false,
         lastChanged := 60 } : TrackerState Nat)).history =
      [⟨5, 60⟩, ⟨3, 40⟩] :=
  ⟨(over_capacity_mutation_amended (Capacity.fin 0) 70 9
      ({ source := 5, history := [⟨3, 40⟩, ⟨0, 30⟩], future := [],
         doingUndo := false, doingRedo := false,
         lastChanged := 60 } : TrackerState Nat) rfl rfl).1 rfl,
   ((over_capacity_mutation_amended (Capacity.fin 1) 70 9
      ({ source := 5, history := [⟨3, 40⟩, ⟨0, 30⟩], future := [],
         doingUndo := false, doingRedo := false,
         lastChanged := 60 } : TrackerState Nat) rfl rfl).2.1 rfl rfl).1,
   (over_capacity_mutation_amended (Capacity.fin 2) 70 9
      ({ source := 5, history := [⟨3, 40⟩, ⟨0, 30⟩], future := [],
         doingUndo := false, doingRedo := false,
         lastChanged := 60 } : TrackerState Nat) rfl rfl).2.2 rfl rfl⟩


/-- C4: from any state with non-empty history, `undo()` followed
immediately by `redo()` restores the cell to the value it held before the
undo and returns history and future to their pre-undo shapes (same values
in the same order). -/
theorem undo_redo_roundtrip {T : Type} (s : TrackerState T) (n1 n2 : Nat)
    (h : s.history ≠ []) :
    (redo n2 (undo n1 s)).source = s.source ∧
    (redo n2 (undo n1 s)).history.map HistoryRecord.value =
      s.history.map HistoryRecord.value ∧
    (redo n2 (undo n1 s)).future.map HistoryRecord.value =
      s.future.map HistoryRecord.value := by
  obtain ⟨r, rest, hh⟩ : ∃ r rest, s.history = r :: rest := by
    cases hhist : s.history with
    | nil => exact absurd hhist h
    | cons a l => exact ⟨a, l, rfl⟩
  unfold undo redo
  simp [hh, clone]

theorem undo_redo_roundtrip_witness :
    (({ source := 2, history := [⟨1, 10⟩], future := [⟨7, 11⟩],
        doingUndo := false, doingRedo := false,
        lastChanged := 12 } : TrackerState Nat)).history ≠ [] ∧
    ((redo 14 (undo 13
      ({ source := 2, history := [⟨1, 10⟩], future := [⟨7, 11⟩],
         doingUndo := false, doingRedo := false,
         lastChanged := 12 } : TrackerState Nat))).source = 2 ∧
     (redo 14 (undo 13
      ({ source := 2, history := [⟨1, 10⟩], future := [⟨7, 11⟩],
         doingUndo := false, doingRedo := false,
         lastChanged := 12 } : TrackerState Nat))).history.map
        HistoryRecord.value = [1] ∧
     (redo 14 (undo 13
      ({ source := 2, history := [⟨1, 10⟩], future := [⟨7, 11⟩],
         doingUndo := false, doingRedo := false,
         lastChanged := 12 } : TrackerState Nat))).future.map
        HistoryRecord.value = [7]) :=
  ⟨by decide, undo_redo_roundtrip _ 13 14 (by decide)⟩

/-- C7 counterexample: start at 0 (time 100), assign 1 (time 101), undo
(time 103, making 0 current again), then assign 7 (time 104).  The record
pushed for the last mutation is `{0, 101}`: its timestamp 101 is the time
of the earlier external mutation (when the value 1 became current), not a
time at which the recorded value 0 became current (100 at construction,
103 at the undo), because undo does not refresh the tracked timestamp. -/
theorem record_timestamp_counterexample :
    (runOps [Op.mutate Capacity.inf 101 1, Op.doUndo Capacity.inf 103,
      Op.mutate Capacity.inf 104 7]
      (initState (0 : Nat) 100)).history.head? = some ⟨0, 101⟩ ∧
    (runOps [Op.mutate Capacity.inf 101 1, Op.doUndo Capacity.inf 103,
      Op.mutate Capacity.inf 104 7]
      (initState (0 : Nat) 100)).history.head? ≠ some ⟨0, 103⟩ ∧
    (runOps [Op.mutate Capacity.inf 101 1, Op.doUndo Capacity.inf 103,
      Op.mutate Capacity.inf 104 7]
      (initState (0 : Nat) 100)).history.head? ≠ some ⟨0, 100⟩ := by
  decide

/-- C7 amended: an external mutation that adds a record pushes the
previous cell value together with the tracked last-changed timestamp —
which is the time of the previous *external* mutation (or of
construction), not necessarily the moment that value became current,
since undo and redo leave the tracked timestamp untouched — and then
updates the tracked timestamp to the current time for the next record. -/
theorem record_timestamp_amended {T : Type} (cap : Capacity) (now : Nat)
    (v : T) (s : TrackerState T) (hu : s.doingUndo = false)
    (hr : s.doingRedo = false) (hc : cap.isZero = false) :
    (extMutate cap now v s).history.head? =
      some (clone { value := s.source, timestamp := s.lastChanged }) ∧
    (extMutate cap now v s).lastChanged = now ∧
    (∀ m, (undo m s).lastChanged = s.lastChanged) ∧
    (∀ m, (redo m s).lastChanged = s.lastChanged) := by
  refine ⟨?_, ?_, ?_, ?_⟩
  · unfold extMutate watchHandler
    simp only [hu, hr, Bool.or_self, Bool.false_eq_true, if_false, hc]
    split <;> simp
  · unfold extMutate watchHandler
    simp only [hu, hr, Bool.or_self, Bool.false_eq_true, if_false, hc]
  · intro m
    rcases s with ⟨src, hist, fut, du, dr, lc⟩
    cases hist <;> rfl
  · intro m
    rcases s with ⟨src, hist, fut, du, dr, lc⟩
    cases fut <;> rfl

theorem record_timestamp_amended_witness :
    (extMutate (Capacity.fin 3) 20 7
      ({ source := 5, history := [⟨1, 10⟩], future := [],
         doingUndo := false, doingRedo := false,
         lastChanged := 12 } : TrackerState Nat)).history.head? =
      some ⟨5, 12⟩ ∧
    (extMutate (Capacity.fin 3) 20 7
      ({ source := 5, history := [⟨1, 10⟩], future := [],
         doingUndo := false, doingRedo := false,
         lastChanged := 12 } : TrackerState Nat)).lastChanged = 20 ∧
    (∀ m, (undo m
      ({ source := 5, history := [⟨1, 10⟩], future := [],
         doingUndo := false, doingRedo := false,
         lastChanged := 12 } : TrackerState Nat)).lastChanged = 12) ∧
    (∀ m, (redo m
      ({ source := 5, history := [⟨1, 10⟩], future := [],
         doingUndo := false, doingRedo := false,
         lastChanged := 12 } : TrackerState Nat)).lastChanged = 12) :=
  record_timestamp_amended (Capacity.fin 3) 20 7 _ rfl rfl rfl

/-- The watch callback never touches the `doingUndo` flag. -/
theorem watchHandler_doingUndo {T : Type} (cap : Capacity) (now : Nat)
    (oldValue : T) (s : TrackerState T) :
    (watchHandler cap now oldValue s).doingUndo = s.doingUndo := by
  unfold watchHandler
  dsimp only
  split
  · rfl
  · split
    · rfl
    · split <;> rfl

/-- The watch callback never touches the `doingRedo` flag. -/
theorem watchHandler_doingRedo {T : Type} (cap : Capacity) (now : Nat)
    (oldValue : T) (s : TrackerState T) :
    (watchHandler cap now oldValue s).doingRedo = s.doingRedo := by
  unfold watchHandler
  dsimp only
  split
  · rfl
  · split
    · rfl
    · split <;> rfl

/-- The capacity effect never touches the suppression flags. -/
theorem capacityEffect_flags {T : Type} (cap : Capacity)
    (s : TrackerState T) :
    (capacityEffect cap s).doingUndo = s.doingUndo ∧
    (capacityEffect cap s).doingRedo = s.doingRedo := by
  unfold capacityEffect
  split <;> exact ⟨rfl, rfl⟩

/-- An external mutation never touches the suppression flags. -/
theorem applyOp_mutate_flags {T : Type} (cap : Capacity) (now : Nat)
    (v : T) (s : TrackerState T) :
    (applyOp (Op.mutate cap now v) s).doingUndo = s.doingUndo ∧
    (applyOp (Op.mutate cap now v) s).doingRedo = s.doingRedo :=
  ⟨(capacityEffect_flags cap _).1.trans
      (watchHandler_doingUndo cap now s.source { s with source := v }),
   (capacityEffect_flags cap _).2.trans
      (watchHandler_doingRedo cap now s.source { s with source := v })⟩

/-- One settled external mutation takes a history of length
`min n capacity` to one of length `min (n + 1) capacity`. -/
theorem mutate_step_length {T : Type} (cap : Capacity) (now : Nat) (v : T)
    (s : TrackerState T) (n : Nat) (hu : s.doingUndo = false)
    (hr : s.doingRedo = false) (hlen : s.history.length = cap.minWith n) :
    (applyOp (Op.mutate cap now v) s).history.length = cap.minWith (n + 1) := by
  cases cap with
  | inf =>
      simp only [Capacity.minWith] at hlen ⊢
      simp [applyOp, extMutate, watchHandler, capacityEffect, hu, hr,
        Capacity.isZero, Capacity.eqLen, Capacity.ltLen, hlen]
  | fin c =>
      simp only [Capacity.minWith] at hlen ⊢
      rcases Nat.eq_zero_or_pos c with hc | hc
      · subst hc
        simp only [Nat.min_zero] at hlen ⊢
        simp [applyOp, extMutate, watchHandler, capacityEffect, hu, hr,
          Capacity.isZero, Capacity.ltLen, hlen]
      · have hz : (Capacity.fin c).isZero = false := by
          simp [Capacity.isZero, Nat.pos_iff_ne_zero.mp hc]
        by_cases he : c = s.history.length
        · have heq : (Capacity.fin c).eqLen s.history.length = true := by
            simp [Capacity.eqLen, he]
          have hmin : min n c = c := by omega
          have hpos : s.history.length ≠ 0 := by omega
          have hlt : (Capacity.fin c).ltLen
              (s.history.dropLast.length + 1) = false := by
            simp only [Capacity.ltLen, List.length_dropLast]
            simp only [decide_eq_false_iff_not, Nat.not_lt]
            omega
          simp only [applyOp, extMutate, watchHandler, hu, hr,
            Bool.or_self, Bool.false_eq_true, if_false, hz, heq, if_true,
            Bool.true_eq_false]
          simp only [capacityEffect, List.length_cons, hlt,
            Bool.false_eq_true, if_false]
          simp only [List.length_cons, List.length_dropLast]
          omega
        · have heq : (Capacity.fin c).eqLen s.history.length = false := by
            simp [Capacity.eqLen, he]
          have hlt : (Capacity.fin c).ltLen (s.history.length + 1) = false := by
            simp only [Capacity.ltLen, decide_eq_false_iff_not, Nat.not_lt]
            omega
          simp only [applyOp, extMutate, watchHandler, hu, hr,
            Bool.or_self, Bool.false_eq_true, if_false, hz, heq, if_true,
            Bool.true_eq_false]
          simp only [capacityEffect, List.length_cons, hlt,
            Bool.false_eq_true, if_false]
          omega

/-- Folding settled external mutations from a clean state advances the
history length along `min`. -/
theorem mutateSeq_length {T : Type} (cap : Capacity) (ms : List (Nat × T)) :
    ∀ (s : TrackerState T) (n : Nat), s.doingUndo = false →
    s.doingRedo = false → s.history.length = cap.minWith n →
    (runOps (ms.map fun p => Op.mutate cap p.1 p.2) s).history.length =
      cap.minWith (n + ms.length) := by
  induction ms with
  | nil =>
      intro s n hu hr hlen
      simpa [runOps] using hlen
  | cons p ms ih =>
      intro s n hu hr hlen
      have hrun : runOps ((p :: ms).map fun q => Op.mutate cap q.1 q.2) s =
          runOps (ms.map fun q => Op.mutate cap q.1 q.2)
            (applyOp (Op.mutate cap p.1 p.2) s) := by
        simp [runOps]
      have hflags := applyOp_mutate_flags cap p.1 p.2 s
      have hstep := mutate_step_length cap p.1 p.2 s n hu hr hlen
      have hrec := ih (applyOp (Op.mutate cap p.1 p.2) s) (n + 1)
        (hflags.1.trans hu) (hflags.2.trans hr) hstep
      have harith : n + 1 + ms.length = n + (p :: ms).length := by
        simp only [List.length_cons]
        omega
      rw [hrun, hrec, harith]

/-- C1: for every sequence of settled external mutations from a fresh
tracker with a fixed capacity, the history length equals
`min(number of mutations so far, capacity)`; quantifying over all
sequences covers every intermediate settling point. -/
theorem history_length_eq_min_mutations {T : Type} (cap : Capacity)
    (ms : List (Nat × T)) (v0 : T) (t0 : Nat) :
    (runOps (ms.map fun p => Op.mutate cap p.1 p.2)
      (initState v0 t0)).history.length = cap.minWith ms.length := by
  have h0 : (initState v0 t0 : TrackerState T).history.length =
      cap.minWith 0 := by
    cases cap <;> simp [initState, Capacity.minWith]
  simpa using mutateSeq_length cap ms (initState v0 t0) 0 rfl rfl h0

/-- The capacity effect only drops values: the tracker values afterwards
form a sublist of the tracker values before. -/
theorem stateVals_capacityEffect {T : Type} (cap : Capacity)
    (s : TrackerState T) :
    List.Sublist (stateVals (capacityEffect cap s)) (stateVals s) := by
  unfold capacityEffect
  split
  · unfold stateVals
    exact List.Sublist.cons₂ _
      (List.Sublist.append ((Capacity.slice_sublist cap _).map _)
        (List.Sublist.refl _))
  · exact List.Sublist.refl _

/-- An external mutation of value `v` only drops values and introduces
`v`: the tracker values afterwards form a sublist of `v` plus the tracker
values before. -/
theorem stateVals_extMutate {T : Type} (cap : Capacity) (now : Nat)
    (v : T) (s : TrackerState T) :
    List.Sublist (stateVals (extMutate cap now v s)) (v :: stateVals s) := by
  unfold extMutate watchHandler stateVals
  dsimp only
  split
  · exact List.Sublist.cons₂ _ (List.sublist_cons_self _ _)
  · split
    · simp only [List.map_nil, List.append_nil]
      exact List.Sublist.cons₂ _
        ((List.sublist_append_left _ _).trans (List.sublist_cons_self _ _))
    · split
      · simp only [List.map_cons, List.map_nil, List.append_nil, clone]
        exact List.Sublist.cons₂ _ (List.Sublist.cons₂ _
          (((List.dropLast_sublist _).map _).trans
            (List.sublist_append_left _ _)))
      · simp only [List.map_cons, List.map_nil, List.append_nil, clone]
        exact List.Sublist.cons₂ _ (List.Sublist.cons₂ _
          (List.sublist_append_left _ _))

/-- `undo` permutes the tracker values: the popped history value moves to
the cell and the old cell value moves into the future list. -/
theorem stateVals_undo {T : Type} (n : Nat) (s : TrackerState T) :
    List.Perm (stateVals (undo n s)) (stateVals s) := by
  rcases s with ⟨src, hist, fut, du, dr, lc⟩
  cases hist with
  | nil => exact List.Perm.refl _
  | cons r rest =>
      unfold undo stateVals
      dsimp only [clone]
      simp only [List.map_cons, List.cons_append]
      exact ((List.perm_middle).cons r.value).trans
        (List.Perm.swap src r.value _)

/-- `redo` permutes the tracker values: the popped future value moves to
the cell and the old cell value moves into the history list. -/
theorem stateVals_redo {T : Type} (n : Nat) (s : TrackerState T) :
    List.Perm (stateVals (redo n s)) (stateVals s) := by
  rcases s with ⟨src, hist, fut, du, dr, lc⟩
  cases fut with
  | nil => exact List.Perm.refl _
  | cons r rest =>
      unfold redo stateVals
      dsimp only [clone]
      simp only [List.map_cons, List.cons_append]
      exact (List.Perm.swap src r.value _).trans
        (List.Perm.cons src List.perm_middle.symm)

/-- One settled event preserves distinctness of the tracker values, given
that a mutated value is fresh; every value afterwards was already present
or is the mutated value. -/
theorem applyOp_stateVals {T : Type} (op : Op T) (s : TrackerState T)
    (hnd : (stateVals s).Nodup)
    (hfresh : ∀ v, op.mutVal = some v → v ∉ stateVals s) :
    (stateVals (applyOp op s)).Nodup ∧
    ∀ x ∈ stateVals (applyOp op s),
      x ∈ stateVals s ∨ op.mutVal = some x := by
  cases op with
  | mutate cap now v =>
      have hv : v ∉ stateVals s := hfresh v rfl
      have hsub : List.Sublist (stateVals (applyOp (Op.mutate cap now v) s))
          (v :: stateVals s) :=
        (stateVals_capacityEffect cap _).trans (stateVals_extMutate cap now v s)
      have hnd2 : (v :: stateVals s).Nodup := List.nodup_cons.mpr ⟨hv, hnd⟩
      refine ⟨hnd2.sublist hsub, fun x hx => ?_⟩
      rcases List.mem_cons.mp (hsub.subset hx) with h | h
      · exact Or.inr (by rw [h]; exact rfl)
      · exact Or.inl h
  | doUndo cap now =>
      have hperm := stateVals_undo now s
      have hsub := stateVals_capacityEffect cap (undo now s)
      refine ⟨(hperm.nodup_iff.mpr hnd).sublist hsub, fun x hx => ?_⟩
      exact Or.inl (hperm.mem_iff.mp (hsub.subset hx))
  | doRedo cap now =>
      have hperm := stateVals_redo now s
      have hsub := stateVals_capacityEffect cap (redo now s)
      refine ⟨(hperm.nodup_iff.mpr hnd).sublist hsub, fun x hx => ?_⟩
      exact Or.inl (hperm.mem_iff.mp (hsub.subset hx))
  | capChange cap =>
      have hsub := stateVals_capacityEffect cap s
      exact ⟨hnd.sublist hsub, fun x hx => Or.inl (hsub.subset hx)⟩

/-- Running a sequence of settled events whose mutated values are fresh
and pairwise distinct keeps the tracker values distinct, and every final
value was initially present or was mutated in. -/
theorem runOps_stateVals_nodup {T : Type} :
    ∀ (ops : List (Op T)) (s : TrackerState T),
    (stateVals s).Nodup → (mutVals ops).Nodup →
    (∀ v ∈ mutVals ops, v ∉ stateVals s) →
    (stateVals (runOps ops s)).Nodup ∧
    (∀ x ∈ stateVals (runOps ops s), x ∈ stateVals s ∨ x ∈ mutVals ops) := by
  intro ops
  induction ops with
  | nil =>
      intro s hnd _ _
      exact ⟨by simpa [runOps] using hnd,
        fun x hx => Or.inl (by simpa [runOps] using hx)⟩
  | cons op rest ih =>
      intro s hnd hmv hfresh
      have hrun : runOps (op :: rest) s = runOps rest (applyOp op s) := by
        simp [runOps]
      have hmv_cons : ∀ v, op.mutVal = some v → v ∈ mutVals (op :: rest) := by
        intro v hv
        simp [mutVals, List.filterMap_cons, hv]
      have hrest_sub : ∀ w ∈ mutVals rest, w ∈ mutVals (op :: rest) := by
        intro w hw
        cases hop : op.mutVal with
        | none => simpa [mutVals, List.filterMap_cons, hop] using hw
        | some v =>
            simp only [mutVals, List.filterMap_cons, hop]
            exact List.mem_cons_of_mem v hw
      obtain ⟨h1, h2⟩ := applyOp_stateVals op s hnd
        (fun v hv => hfresh v (hmv_cons v hv))
      have hmvrest : (mutVals rest).Nodup := by
        cases hop : op.mutVal with
        | none => simpa [mutVals, List.filterMap_cons, hop] using hmv
        | some v =>
            have hx : (v :: mutVals rest).Nodup := by
              simpa [mutVals, List.filterMap_cons, hop] using hmv
            exact (List.nodup_cons.mp hx).2
      have hfresh2 : ∀ w ∈ mutVals rest, w ∉ stateVals (applyOp op s) := by
        intro w hw hmem
        rcases h2 w hmem with hcase | hcase
        · exact hfresh w (hrest_sub w hw) hcase
        · have hx : mutVals (op :: rest) = w :: mutVals rest := by
            simp [mutVals, List.filterMap_cons, hcase]
          rw [hx] at hmv
          exact (List.nodup_cons.mp hmv).1 hw
      obtain ⟨g1, g2⟩ := ih (applyOp op s) h1 hmvrest hfresh2
      rw [hrun]
      refine ⟨g1, fun x hx => ?_⟩
      rcases g2 x hx with hx2 | hx2
      · rcases h2 x hx2 with h3 | h3
        · exact Or.inl h3
        · exact Or.inr (hmv_cons x h3)
      · exact Or.inr (hrest_sub x hx2)

/-- C9 counterexample: with unlimited capacity, assigning 1 and then 0
again to a cell that started at 0 leaves the cell at 0 while history
holds the values [1, 0] — the current value is found in history, so the
claim fails at this input. -/
theorem current_value_in_history_counterexample :
    (runOps [Op.mutate Capacity.inf 101 1, Op.mutate Capacity.inf 102 0]
      (initState (0 : Nat) 100)).source = 0 ∧
    (runOps [Op.mutate Capacity.inf 101 1, Op.mutate Capacity.inf 102 0]
      (initState (0 : Nat) 100)).source ∈
      (runOps [Op.mutate Capacity.inf 101 1, Op.mutate Capacity.inf 102 0]
        (initState (0 : Nat) 100)).history.map HistoryRecord.value := by
  decide

/-- C9 amended: at every settling point of every sequence of external
mutations, undos, redos and capacity changes in which the initial value
and all externally assigned values are pairwise distinct, the cell's
current value is never found among the values stored in history. -/
theorem current_value_not_in_history_of_distinct {T : Type}
    (ops : List (Op T)) (v0 : T) (t0 : Nat)
    (h : (v0 :: mutVals ops).Nodup) :
    (runOps ops (initState v0 t0)).source ∉
      (runOps ops (initState v0 t0)).history.map HistoryRecord.value := by
  have h0 : stateVals (initState v0 t0) = [v0] := rfl
  obtain ⟨hnd, -⟩ := runOps_stateVals_nodup ops (initState v0 t0)
    (by rw [h0]; exact List.nodup_singleton v0)
    (List.nodup_cons.mp h).2
    (by
      intro v hv hmem
      rw [h0] at hmem
      have hveq : v = v0 := List.mem_singleton.mp hmem
      exact (List.nodup_cons.mp h).1 (hveq ▸ hv))
  intro hmem
  have hx : (runOps ops (initState v0 t0)).source ∈
      (runOps ops (initState v0 t0)).history.map HistoryRecord.value ++
      (runOps ops (initState v0 t0)).future.map HistoryRecord.value :=
    List.mem_append_left _ hmem
  unfold stateVals at hnd
  exact (List.nodup_cons.mp hnd).1 hx

theorem current_value_not_in_history_of_distinct_witness :
    ((0 : Nat) :: mutVals [Op.mutate Capacity.inf 101 1,
      Op.mutate Capacity.inf 102 2, Op.doUndo Capacity.inf 103]).Nodup ∧
    (runOps [Op.mutate Capacity.inf 101 1, Op.mutate Capacity.inf 102 2,
      Op.doUndo Capacity.inf 103] (initState (0 : Nat) 100)).source ∉
      (runOps [Op.mutate Capacity.inf 101 1, Op.mutate Capacity.inf 102 2,
        Op.doUndo Capacity.inf 103]
        (initState (0 : Nat) 100)).history.map HistoryRecord.value :=
  ⟨by decide, current_value_not_in_history_of_distinct _ 0 100 (by decide)⟩
